import Mathlib

/-!
Verification of the fantasy_stats scraper (fantasy_data_scrape.py, scrape_parallel.py).

Shallow embedding conventions:
* Python values stored in a stats dictionary are `int`, `float`, or `str`; we model them
  with the inductive type `Value` (machine floats are modelled exactly as rationals; the
  cells that occur here are short decimal literals, which floats represent closely and
  whose arithmetic in the scoring formula we model exactly over `ℚ`).
* Python `dict`s are modelled as insertion-ordered association lists; assignment to an
  existing key overwrites in place, assignment to a fresh key appends.
* Python `round(x, 2)` rounds half-to-even; `roundHalfEven` models it exactly on `ℚ`.
* Strings are compared and manipulated through their character lists.
-/

namespace FantasyStats

/-- A Python value held in a stats dictionary: `int`, `float`, or `str`
(resulting from the scraper's cell coercion). -/
inductive Value where
  | intV (n : ℤ)
  | floatV (q : ℚ)
  | strV (s : String)
deriving DecidableEq, Repr

/-- Python truthiness test used by `if not week_val`: zero numbers and the
empty string are falsy. -/
def falsy : Value → Bool
  | .intV n => n = 0
  | .floatV q => q = 0
  | .strV s => s = ""

/-- Python `str.isdigit()` for the (ASCII) strings occurring in the tables:
nonempty and all characters decimal digits. -/
def isdigitStr (s : String) : Bool :=
  !s.data.isEmpty && s.data.all Char.isDigit

/-- Python `str(val).isdigit()` applied to a stats value.  `str` of an `int` is a
digit string exactly when the int is nonnegative (a sign character otherwise);
`str` of a CPython float always contains `.`, `e`, `inf` or `nan`, hence is never
all digits. -/
def pyStrIsdigit : Value → Bool
  | .intV n => decide (0 ≤ n)
  | .floatV _ => false
  | .strV s => isdigitStr s

/-- Digit list to number, used by the `int()` model. -/
def digitsToNat (l : List Char) : ℕ :=
  l.foldl (fun a c => 10 * a + (c.toNat - 48)) 0

/-- Python `int(s)` on a stripped cell: optional sign followed by one or more
digits; `none` models the `ValueError`. -/
def parseInt (s : String) : Option ℤ :=
  match s.data with
  | [] => none
  | c :: rest =>
    if c = '-' then
      if !rest.isEmpty && rest.all Char.isDigit then some (-(digitsToNat rest : ℤ)) else none
    else if c = '+' then
      if !rest.isEmpty && rest.all Char.isDigit then some (digitsToNat rest : ℤ) else none
    else if (c :: rest).all Char.isDigit then some (digitsToNat (c :: rest) : ℤ)
    else none

/-- Python `float(s)` for the decimal forms occurring in these tables: optional
sign, digits, one decimal point, digits (at least one digit overall).
Exotic accepted forms (exponents, `inf`, `nan`, embedded underscores) are not
modelled; the scraper only reaches `float()` for cell texts containing `.`. -/
def parseFloat (s : String) : Option ℚ :=
  let core : List Char → Option ℚ := fun l =>
    match l.splitOn '.' with
    | [ip, fp] =>
      if (ip.all Char.isDigit && fp.all Char.isDigit) && !(ip.isEmpty && fp.isEmpty) then
        some ((digitsToNat ip : ℚ) + (digitsToNat fp : ℚ) / ((10 : ℚ) ^ fp.length))
      else none
    | _ => none
  match s.data with
  | [] => none
  | c :: rest =>
    if c = '-' then (core rest).map (fun q => -q)
    else if c = '+' then core rest
    else core (c :: rest)

/-- Cell text coercion (fantasy_data_scrape.py lines 267-271):
`float(val) if "." in val else int(val)`, falling back to the raw string on
`ValueError`. -/
def coerce (val : String) : Value :=
  if val.data.contains '.' then
    match parseFloat val with
    | some q => .floatV q
    | none => .strV val
  else
    match parseInt val with
    | some n => .intV n
    | none => .strV val

/-- Python `int(val)` applied to a stats value (used for the week field):
ints unchanged, floats truncated toward zero, digit strings parsed. -/
def pyInt : Value → ℤ
  | .intV n => n
  | .floatV q => q.num.tdiv (q.den : ℤ)
  | .strV s => (parseInt s).getD 0

/-! ### Rounding and the scoring engine -/

/-- Round a rational to the nearest integer, ties to even — the behaviour of
Python's built-in `round`. -/
def roundHalfEven (x : ℚ) : ℤ :=
  if x - ⌊x⌋ < 1/2 then ⌊x⌋
  else if 1/2 < x - ⌊x⌋ then ⌊x⌋ + 1
  else if ⌊x⌋ % 2 = 0 then ⌊x⌋ else ⌊x⌋ + 1

/-- Python `round(x, 2)`. -/
def round2 (x : ℚ) : ℚ :=
  (roundHalfEven (100 * x) : ℚ) / 100

/-- The derived score triple. -/
structure Fantasy where
  standard : ℚ
  half_ppr : ℚ
  ppr : ℚ
deriving DecidableEq, Repr

/-- A stats dictionary: insertion-ordered map from canonical name to value. -/
abbrev StatMap := List (String × Value)

/-- `m.get(k)` on a Python dict. -/
def dictGet? (m : StatMap) (k : String) : Option Value :=
  (m.find? (fun p => p.1 = k)).map (fun p => p.2)

/-- `m.get(k, d)` on a Python dict. -/
def dictGetD (m : StatMap) (k : String) (d : Value) : Value :=
  (dictGet? m k).getD d

/-- `k in m` on a Python dict. -/
def containsKey (m : StatMap) (k : String) : Bool :=
  m.any (fun p => p.1 = k)

/-- `m[k] = v` on a Python dict: overwrite in place if present, else append. -/
def dictInsert (m : StatMap) (k : String) (v : Value) : StatMap :=
  if containsKey m k then m.map (fun p => if p.1 = k then (k, v) else p)
  else m ++ [(k, v)]

/-- The helper `g` inside `calc_fantasy`: `stats.get(key, 0)` if numeric, else 0. -/
def statGet (stats : StatMap) (key : String) : ℚ :=
  match dictGet? stats key with
  | some (.intV n) => (n : ℚ)
  | some (.floatV q) => q
  | _ => 0

/-- `calc_fantasy` (fantasy_data_scrape.py lines 297-326). -/
def calc_fantasy (stats : StatMap) : Fantasy :=
  let pass_yds := statGet stats "Pass Yds"
  let pass_td := statGet stats "Pass TD"
  let interceptions := statGet stats "Int"
  let rush_yds := statGet stats "Rush Yds"
  let rush_td := statGet stats "Rush TD"
  let rec_ := statGet stats "Rec"
  let rec_yds := statGet stats "Rec Yds"
  let rec_td := statGet stats "Rec TD"
  let fumbles_lost := statGet stats "Fumbles Lost"
  let two_pt := statGet stats "2PM"
  let std := pass_yds / 25 + pass_td * 4 - interceptions * 2
    + rush_yds / 10 + rush_td * 6
    + rec_yds / 10 + rec_td * 6
    + two_pt * 2 - fumbles_lost * 2
  let half := std + rec_ * (1/2)
  let ppr := std + rec_ * 1
  { standard := round2 std, half_ppr := round2 half, ppr := round2 ppr }

/-- The scoring formula as the specification states it, over the spec's named
numeric inputs. -/
def specScore (passYds passTD interceptions rushYds rushTD receptions recYds recTD
    fumblesLost twoPointConversions : ℚ) : Fantasy :=
  let standard := passYds / 25 + passTD * 4 - interceptions * 2
    + rushYds / 10 + rushTD * 6
    + recYds / 10 + recTD * 6
    + twoPointConversions * 2 - fumblesLost * 2
  { standard := round2 standard
    half_ppr := round2 (standard + receptions * (1/2))
    ppr := round2 (standard + receptions * 1) }

/-- The scenario stats mapping from the specification, under the raw-stat key
names `calc_fantasy` reads. -/
def exampleStats : StatMap :=
  [("Pass Yds", .intV 300), ("Pass TD", .intV 3), ("Int", .intV 1),
   ("Rush Yds", .intV 50), ("Rush TD", .intV 0), ("Rec", .intV 5),
   ("Rec Yds", .intV 60), ("Rec TD", .intV 1), ("Fumbles Lost", .intV 0),
   ("2PM", .intV 0)]

/-! ### Rounding lemmas -/

theorem floor_le_roundHalfEven (x : ℚ) : ⌊x⌋ ≤ roundHalfEven x := by
  unfold roundHalfEven
  split_ifs <;> omega

theorem roundHalfEven_le_floor_add_one (x : ℚ) : roundHalfEven x ≤ ⌊x⌋ + 1 := by
  unfold roundHalfEven
  split_ifs <;> omega

theorem roundHalfEven_mono {x y : ℚ} (h : x ≤ y) : roundHalfEven x ≤ roundHalfEven y := by
  have hf : ⌊x⌋ ≤ ⌊y⌋ := Int.floor_le_floor h
  rcases eq_or_lt_of_le hf with heq | hlt
  · unfold roundHalfEven
    rw [← heq]
    split_ifs <;> first | omega | (exfalso; linarith)
  · calc roundHalfEven x ≤ ⌊x⌋ + 1 := roundHalfEven_le_floor_add_one x
      _ ≤ ⌊y⌋ := by omega
      _ ≤ roundHalfEven y := floor_le_roundHalfEven y

theorem roundHalfEven_add_int_even (x : ℚ) (m : ℤ) (hm : m % 2 = 0) :
    roundHalfEven (x + m) = roundHalfEven x + m := by
  unfold roundHalfEven
  rw [Int.floor_add_int]
  have h : x + (m : ℚ) - ((⌊x⌋ + m : ℤ) : ℚ) = x - ⌊x⌋ := by push_cast; ring
  rw [h]
  split_ifs <;> omega

theorem round2_mono {x y : ℚ} (h : x ≤ y) : round2 x ≤ round2 y := by
  unfold round2
  have h1 : roundHalfEven (100 * x) ≤ roundHalfEven (100 * y) :=
    roundHalfEven_mono (by linarith)
  rw [div_le_div_iff_of_pos_right (by norm_num : (0:ℚ) < 100)]
  exact_mod_cast h1

theorem round2_add_int (x : ℚ) (n : ℤ) : round2 (x + n) = round2 x + n := by
  unfold round2
  have h : 100 * (x + (n : ℚ)) = 100 * x + ((100 * n : ℤ) : ℚ) := by push_cast; ring
  rw [h, roundHalfEven_add_int_even _ (100 * n) (by omega)]
  push_cast
  ring

/-- C1: `calc_fantasy` computes the spec's scoring formula — `standard` is the
stated linear combination of the raw stats (absent or non-numeric stats
contributing 0 through `statGet`), `half_ppr` adds half a point and `ppr` one
point per reception, all three rounded to two decimals; on the spec's scenario
stats it yields standard 39.00, half_ppr 41.50, ppr 44.00. -/
theorem calc_fantasy_spec :
    (∀ stats : StatMap, calc_fantasy stats =
      specScore (statGet stats "Pass Yds") (statGet stats "Pass TD") (statGet stats "Int")
        (statGet stats "Rush Yds") (statGet stats "Rush TD") (statGet stats "Rec")
        (statGet stats "Rec Yds") (statGet stats "Rec TD") (statGet stats "Fumbles Lost")
        (statGet stats "2PM"))
    ∧ calc_fantasy exampleStats = { standard := 39, half_ppr := 83/2, ppr := 44 } := by
  constructor
  · intro stats
    rfl
  · have h1 : round2 39 = 39 := by norm_num [round2, roundHalfEven]
    have h2 : round2 (83/2) = 83/2 := by norm_num [round2, roundHalfEven]
    have h3 : round2 44 = 44 := by norm_num [round2, roundHalfEven]
    simp [calc_fantasy, statGet, dictGet?, exampleStats, Fantasy.mk.injEq]
    norm_num
    exact ⟨h1, h2, h3⟩

/-- A stats mapping whose receptions value is the float 0.004: its receptions
contribution is positive, yet all three rounded scores coincide. -/
def recTiny : StatMap := [("Rec", .floatV (1/250))]

/-- C10 counterexample: with receptions = 0.004 (a nonnegative number), the
returned triple is (0, 0, 0) — all three scores are equal although the
receptions contribution is not 0, refuting the claimed "equal exactly when the
receptions contribution is 0". -/
theorem scoring_receptions_counterexample :
    0 ≤ statGet recTiny "Rec" ∧ statGet recTiny "Rec" ≠ 0 ∧
    calc_fantasy recTiny = { standard := 0, half_ppr := 0, ppr := 0 } := by
  refine ⟨by norm_num [statGet, dictGet?, recTiny],
    by norm_num [statGet, dictGet?, recTiny], ?_⟩
  have hf1 : (⌊(1/5 : ℚ)⌋ : ℤ) = 0 := by norm_num [Int.floor_eq_iff]
  have hf2 : (⌊(2/5 : ℚ)⌋ : ℤ) = 0 := by norm_num [Int.floor_eq_iff]
  have h0 : round2 0 = 0 := by norm_num [round2, roundHalfEven]
  have ha : round2 (1/500) = 0 := by
    unfold round2 roundHalfEven
    norm_num [hf1]
  have hb : round2 (1/250) = 0 := by
    unfold round2 roundHalfEven
    norm_num [hf2]
  simp [calc_fantasy, statGet, dictGet?, recTiny, Fantasy.mk.injEq]
  norm_num
  exact ⟨h0, ha, hb⟩

/-- C10 amended: with a nonnegative receptions value the triple satisfies
standard ≤ half_ppr ≤ ppr; all three are equal when the receptions
contribution is 0; and when the receptions value is an integer (as it is for
every real reception count), equality of ppr and standard forces receptions
to be 0.  (For non-integral float receptions such as 0.004 the rounded triple
can collapse with a nonzero contribution.) -/
theorem scoring_receptions_amended (stats : StatMap) (h : 0 ≤ statGet stats "Rec") :
    ((calc_fantasy stats).standard ≤ (calc_fantasy stats).half_ppr
      ∧ (calc_fantasy stats).half_ppr ≤ (calc_fantasy stats).ppr)
    ∧ (statGet stats "Rec" = 0 →
        (calc_fantasy stats).standard = (calc_fantasy stats).half_ppr
          ∧ (calc_fantasy stats).half_ppr = (calc_fantasy stats).ppr)
    ∧ (∀ n : ℤ, statGet stats "Rec" = (n : ℚ) →
        ((calc_fantasy stats).ppr = (calc_fantasy stats).standard ↔ n = 0)) := by
  refine ⟨⟨round2_mono (by nlinarith), round2_mono (by nlinarith)⟩, ?_, ?_⟩
  · intro hrec
    simp [calc_fantasy, hrec]
  · intro n hn
    show round2 (_ + statGet stats "Rec" * 1) = round2 _ ↔ n = 0
    rw [mul_one, hn, round2_add_int]
    constructor
    · intro hp
      have : ((n : ℚ)) = 0 := by linarith
      exact_mod_cast this
    · intro hz
      simp [hz]

/-- Witness for the amended C10 at a concrete input (two receptions). -/
def recTwo : StatMap := [("Rec", .intV 2)]

theorem scoring_receptions_amended_witness :
    ((calc_fantasy recTwo).standard ≤ (calc_fantasy recTwo).half_ppr
      ∧ (calc_fantasy recTwo).half_ppr ≤ (calc_fantasy recTwo).ppr)
    ∧ ¬ (calc_fantasy recTwo).ppr = (calc_fantasy recTwo).standard := by
  have h : 0 ≤ statGet recTwo "Rec" := by norm_num [statGet, dictGet?, recTwo]
  have h2 : statGet recTwo "Rec" = ((2 : ℤ) : ℚ) := by norm_num [statGet, dictGet?, recTwo]
  refine ⟨(scoring_receptions_amended recTwo h).1, fun hp => ?_⟩
  have h0 := ((scoring_receptions_amended recTwo h).2.2 2 h2).mp hp
  exact absurd h0 (by decide)

/-! ### Schema registry and seeding (get_table_metadata, lines 54-66) -/

/-- One schema registry entry: the canonical ("unique") name and the tooltip. -/
structure SchemaEntry where
  unique : String
  tip : String
deriving DecidableEq, Repr

/-- A raw header identity: (category, column). -/
abbrev HeaderKey := String × String

/-- The registry: an insertion-ordered Python dict HeaderKey → SchemaEntry. -/
abbrev Registry := List (HeaderKey × SchemaEntry)

def regContains (m : Registry) (k : HeaderKey) : Bool :=
  m.any (fun p => p.1 = k)

/-- `meta[key] = v`: overwrite in place if present, else append. -/
def regInsert (m : Registry) (k : HeaderKey) (v : SchemaEntry) : Registry :=
  if regContains m k then m.map (fun p => if p.1 = k then (k, v) else p)
  else m ++ [(k, v)]

def regLookup (m : Registry) (k : HeaderKey) : Option SchemaEntry :=
  (m.find? (fun p => p.1 = k)).map (fun p => p.2)

/-- `cat[:2].lower()`. -/
def pyLower2 (s : String) : String :=
  String.mk ((s.data.take 2).map Char.toLower)

/-- A header triple (category, column, tooltip) as zipped by the seeding loop. -/
abbrev HeaderTriple := String × String × String

/-- The `name_count` dict of the seeding loop. -/
abbrev NameCount := List (String × ℕ)

def ncContains (nc : NameCount) (s : String) : Bool :=
  nc.any (fun p => p.1 = s)

/-- `name_count[base] += 1`. -/
def ncInc (nc : NameCount) (s : String) : NameCount :=
  nc.map (fun p => if p.1 = s then (p.1, p.2 + 1) else p)

/-- The seeding loop of `get_table_metadata` rendered as structural recursion on
the remaining triples, threading the loop state (`name_count`, `meta`) and also
recording the `unique` name computed at each iteration. -/
def seedGo (nc : NameCount) (meta : Registry) : List HeaderTriple → Registry × List String
  | [] => (meta, [])
  | t :: rest =>
    if ncContains nc t.2.1 then
      let uniq := pyLower2 t.1 ++ t.2.1
      let r := seedGo (ncInc nc t.2.1) (regInsert meta (t.1, t.2.1) ⟨uniq, t.2.2⟩) rest
      (r.1, uniq :: r.2)
    else
      let r := seedGo (nc ++ [(t.2.1, 1)]) (regInsert meta (t.1, t.2.1) ⟨t.2.1, t.2.2⟩) rest
      (r.1, t.2.1 :: r.2)

/-- The `meta` map built by seeding from a triple list. -/
def seedMeta (ts : List HeaderTriple) : Registry := (seedGo [] [] ts).1

/-- The canonical names assigned at each seeding iteration, in order. -/
def seedUniques (ts : List HeaderTriple) : List String := (seedGo [] [] ts).2

/-- Whether a column label occurs among the already-processed triples. -/
def colSeen (pre : List HeaderTriple) (col : String) : Bool :=
  pre.any (fun u => u.2.1 = col)

/-- The canonical name the specification's disambiguation rule assigns to a
triple, given the triples already processed: the bare column label if new,
otherwise the label prefixed with the lowercased first two characters of the
category. -/
def claimUnique (pre : List HeaderTriple) (t : HeaderTriple) : String :=
  if colSeen pre t.2.1 then pyLower2 t.1 ++ t.2.1 else t.2.1

/-- The specification's disambiguation rule applied in encounter order. -/
def claimUniques (pre : List HeaderTriple) : List HeaderTriple → List String
  | [] => []
  | t :: rest => claimUnique pre t :: claimUniques (pre ++ [t]) rest

theorem ncContains_ncInc (nc : NameCount) (s c : String) :
    ncContains (ncInc nc s) c = ncContains nc c := by
  induction nc with
  | nil => rfl
  | cons p rest ih =>
    simp only [ncContains, ncInc, List.map_cons, List.any_cons] at *
    by_cases h : p.1 = s <;> simp [h, ih]

theorem ncContains_append_single (nc : NameCount) (s c : String) (n : ℕ) :
    ncContains (nc ++ [(s, n)]) c = (ncContains nc c || decide (s = c)) := by
  simp [ncContains, List.any_append]

theorem colSeen_append_single (pre : List HeaderTriple) (t : HeaderTriple) (c : String) :
    colSeen (pre ++ [t]) c = (colSeen pre c || decide (t.2.1 = c)) := by
  simp [colSeen, List.any_append]

/-- The trace of canonical names computed by the source loop coincides with the
specification's disambiguation rule, for any loop state consistent with the
already-processed prefix. -/
theorem seedGo_uniques_eq (ts : List HeaderTriple) :
    ∀ (pre : List HeaderTriple) (nc : NameCount) (meta : Registry),
    (∀ c, ncContains nc c = colSeen pre c) →
    (seedGo nc meta ts).2 = claimUniques pre ts := by
  induction ts with
  | nil => intro pre nc meta _; rfl
  | cons t rest ih =>
    intro pre nc meta h
    simp only [seedGo, claimUniques, claimUnique, h t.2.1]
    by_cases hc : colSeen pre t.2.1
    · simp only [hc, if_true]
      refine congrArg _ (ih (pre ++ [t]) _ _ ?_)
      intro c
      rw [ncContains_ncInc, h c, colSeen_append_single]
      by_cases he : t.2.1 = c
      · subst he; simp [hc]
      · simp [he]
    · simp only [hc, if_false]
      refine congrArg _ (ih (pre ++ [t]) _ _ ?_)
      intro c
      rw [ncContains_append_single, h c, colSeen_append_single]

/-- Element-wise description of the specification's rule. -/
theorem claimUniques_getElem? (ts : List HeaderTriple) :
    ∀ (pre : List HeaderTriple) (k : ℕ),
    (claimUniques pre ts)[k]? = (ts[k]?).map (fun t => claimUnique (pre ++ ts.take k) t) := by
  induction ts with
  | nil => intro pre k; simp [claimUniques]
  | cons t rest ih =>
    intro pre k
    cases k with
    | zero => simp [claimUniques]
    | succ k =>
      simp only [claimUniques, List.getElem?_cons_succ, List.take_succ_cons, ih (pre ++ [t]) k]
      rw [List.append_cons pre t (rest.take k)]

theorem pyLower2_ne_empty {s : String} (h : s ≠ "") : pyLower2 s ≠ "" := by
  intro he
  apply h
  have hd := congrArg String.data he
  simp only [pyLower2] at hd
  apply String.ext
  simpa using hd

theorem string_append_right_cancel {a b c : String} (h : a ++ c = b ++ c) : a = b := by
  apply String.ext
  have hd := congrArg String.data h
  simp only [String.data_append] at hd
  exact List.append_cancel_right hd

theorem string_ne_append_self {p s : String} (hp : p ≠ "") : s ≠ p ++ s := by
  intro he
  apply hp
  have hd := congrArg String.data he
  rw [String.data_append] at hd
  have hl := congrArg List.length hd
  simp only [List.length_append] at hl
  apply String.ext
  have : p.data.length = 0 := by omega
  simpa using List.eq_nil_of_length_eq_zero this

/-- C4: the seeding pass assigns, in encounter order, the bare column label to
the first triple carrying that label and the label prefixed with the lowercased
first two characters of its category to every later triple with the same label;
on categories [Passing, Passing, Rushing] with columns [Yds, TD, Yds] it yields
[Yds, TD, ruYds]. -/
theorem seeding_disambiguation :
    (∀ ts : List HeaderTriple, seedUniques ts = claimUniques [] ts)
    ∧ seedUniques [("Passing", "Yds", ""), ("Passing", "TD", ""), ("Rushing", "Yds", "")]
        = ["Yds", "TD", "ruYds"] := by
  constructor
  · intro ts
    exact seedGo_uniques_eq ts [] [] [] (fun c => rfl)
  · decide

/-- Three triples sharing the column label "Yds" under the pairwise-distinct
categories "Passing", "Rushing" and "Russia". -/
def collidingTriples : List HeaderTriple :=
  [("Passing", "Yds", ""), ("Rushing", "Yds", ""), ("Russia", "Yds", "")]

/-- C5 counterexample: the triples satisfy the claim's precondition (any two
triples sharing a column label have different categories), yet the two distinct
keys (Rushing, Yds) and (Russia, Yds) are both assigned the canonical name
"ruYds" — the first two lowercased characters of the categories coincide. -/
theorem seeding_uniqueness_counterexample :
    (∀ t1 ∈ collidingTriples, ∀ t2 ∈ collidingTriples,
        t1.2.1 = t2.2.1 → t1 ≠ t2 → t1.1 ≠ t2.1)
    ∧ (("Rushing", "Yds") : HeaderKey) ≠ ("Russia", "Yds")
    ∧ regLookup (seedMeta collidingTriples) ("Rushing", "Yds") = some ⟨"ruYds", ""⟩
    ∧ regLookup (seedMeta collidingTriples) ("Russia", "Yds") = some ⟨"ruYds", ""⟩ := by
  decide

theorem seedU_aux (ts : List HeaderTriple) (i j : ℕ) (t1 t2 : HeaderTriple)
    (hi : ts[i]? = some t1) (hj : ts[j]? = some t2) (hij : i < j)
    (hcol : t1.2.1 = t2.2.1) (hcat : t1.1 ≠ t2.1)
    (hcats : ∀ t ∈ ts, t.1 ≠ "")
    (hpre : ∀ u1 ∈ ts, ∀ u2 ∈ ts, u1.2.1 = u2.2.1 → u1.1 ≠ u2.1 →
        pyLower2 u1.1 ≠ pyLower2 u2.1) :
    ∀ u v, (seedUniques ts)[i]? = some u → (seedUniques ts)[j]? = some v → u ≠ v := by
  intro u v hu hv
  have hrw : seedUniques ts = claimUniques [] ts := seedGo_uniques_eq ts [] [] [] (fun c => rfl)
  rw [hrw, claimUniques_getElem? ts [] i, hi] at hu
  rw [hrw, claimUniques_getElem? ts [] j, hj] at hv
  simp only [Option.map_some', Option.some.injEq, List.nil_append] at hu hv
  have hmem1 : t1 ∈ ts := List.getElem?_mem hi
  have hmem2 : t2 ∈ ts := List.getElem?_mem hj
  have htake : t1 ∈ ts.take j :=
    List.getElem?_mem (by rw [List.getElem?_take_of_lt hij]; exact hi)
  have hseen : colSeen (ts.take j) t2.2.1 = true := by
    simp only [colSeen, List.any_eq_true, decide_eq_true_eq]
    exact ⟨t1, htake, hcol⟩
  rw [claimUnique, hseen] at hv
  simp only [if_true] at hv
  subst hu
  subst hv
  by_cases hcs : colSeen (ts.take i) t1.2.1 = true
  · rw [claimUnique, if_pos hcs]
    intro he
    rw [hcol] at he
    exact hpre t1 hmem1 t2 hmem2 hcol hcat (string_append_right_cancel he)
  · rw [claimUnique, if_neg hcs]
    intro he
    rw [hcol] at he
    exact string_ne_append_self (pyLower2_ne_empty (hcats t2 hmem2)) he

/-- C5 amended: during one seeding pass, two triples with distinct
(category, column) keys but the same column label receive different canonical
names, provided every category is nonempty and any two same-column triples
have categories whose lowercased two-character prefixes differ.  (The claim's
weaker precondition — categories merely different — is refuted by
`seeding_uniqueness_counterexample`; global uniqueness across different column
labels also fails, e.g. a bare label can equal another label's prefixed name.) -/
theorem seeding_uniqueness_amended (ts : List HeaderTriple) (i j : ℕ) (t1 t2 : HeaderTriple)
    (hi : ts[i]? = some t1) (hj : ts[j]? = some t2)
    (hcol : t1.2.1 = t2.2.1) (hkey : (t1.1, t1.2.1) ≠ (t2.1, t2.2.1))
    (hcats : ∀ t ∈ ts, t.1 ≠ "")
    (hpre : ∀ u1 ∈ ts, ∀ u2 ∈ ts, u1.2.1 = u2.2.1 → u1.1 ≠ u2.1 →
        pyLower2 u1.1 ≠ pyLower2 u2.1) :
    ∀ u v, (seedUniques ts)[i]? = some u → (seedUniques ts)[j]? = some v → u ≠ v := by
  intro u v hu hv
  have hcat : t1.1 ≠ t2.1 := by
    intro he
    exact hkey (by rw [he, hcol])
  rcases lt_trichotomy i j with hij | hij | hij
  · exact seedU_aux ts i j t1 t2 hi hj hij hcol hcat hcats hpre u v hu hv
  · subst hij
    rw [hi] at hj
    have ht := Option.some.inj hj
    exact absurd (by rw [ht]) hkey
  · exact Ne.symm (seedU_aux ts j i t2 t1 hj hi hij hcol.symm (Ne.symm hcat) hcats
      (fun u1 h1 u2 h2 hc hne => hpre u1 h1 u2 h2 hc hne) v u hv hu)

/-- Witness for the amended C5: on [(Passing, Yds), (Rushing, Yds)] the two
assigned canonical names are Yds and ruYds, which differ. -/
theorem seeding_uniqueness_amended_witness : ("Yds" : String) ≠ "ruYds" :=
  seeding_uniqueness_amended
    [("Passing", "Yds", ""), ("Rushing", "Yds", "")] 0 1
    ("Passing", "Yds", "") ("Rushing", "Yds", "")
    (by decide) (by decide) (by decide) (by decide)
    (by decide) (by decide)
    "Yds" "ruYds" (by decide) (by decide)

/-! ### Record normalization (scrape_gamelog, lines 213-294) -/

/-- Python `s.strip("_")`: drop leading and trailing underscores. -/
def stripUnderscores (s : String) : String :=
  String.mk (((s.data.dropWhile (fun c => c = '_')).reverse.dropWhile
    (fun c => c = '_')).reverse)

/-- The fallback canonical name for an unknown header pair
(line 247): `f"{cat}_{col}".strip("_")`. -/
def fallbackName (cat col : String) : String :=
  stripUnderscores (cat ++ "_" ++ col)

/-- A schema-log line, `f"{cat},{col}:{unique} | {tip}"` (without the newline). -/
def logLine (cat col unique tip : String) : String :=
  cat ++ "," ++ col ++ ":" ++ unique ++ " | " ++ tip

/-- Header resolution of `scrape_gamelog` (lines 239-251): each
(category, column, tooltip) triple resolves to the registry's unique name, or
on a miss to the synthesized fallback name, appending one line to the schema
log per miss.  The in-memory registry is never modified — the code assigns
nothing into `metadata_map` — so the function returns only the canonical
headers list and the appended log lines. -/
def resolveHeaders (reg : Registry) : List HeaderTriple → List String × List String
  | [] => ([], [])
  | t :: rest =>
    let r := resolveHeaders reg rest
    match regLookup reg (t.1, t.2.1) with
    | some info => (info.unique :: r.1, r.2)
    | none =>
      (fallbackName t.1 t.2.1 :: r.1,
        logLine t.1 t.2.1 (fallbackName t.1 t.2.1) t.2.2 :: r.2)

/-- Row-cell assignment (lines 262-271): `game_data[headers[i]] = coerce(cell)`
for the cells after the first, index-aligned with the headers, extra cells
ignored. -/
def assignCells (m : StatMap) : List (String × String) → StatMap
  | [] => m
  | (h, c) :: rest => assignCells (dictInsert m h (coerce c)) rest

/-- The dict built from one row's data cells. -/
def rowStats (headers cells : List String) : StatMap :=
  assignCells [] (headers.zip cells)

/-- Zero-fill (lines 273-277): every registry unique name not present in the
row's dict is inserted with the int 0. -/
def fillMissing (m : StatMap) : Registry → StatMap
  | [] => m
  | (_, info) :: rest =>
    fillMissing (if containsKey m info.unique then m else m ++ [(info.unique, .intV 0)]) rest

/-- The keys of a stats dict, in order. -/
def keysOf (m : StatMap) : List String := m.map Prod.fst

/-- The unique names of a registry, in order. -/
def uniquesOf (reg : Registry) : List String := reg.map (fun p => p.2.unique)

theorem containsKey_eq_mem_keysOf (m : StatMap) (k : String) :
    containsKey m k = true ↔ k ∈ keysOf m := by
  simp [containsKey, keysOf, List.any_eq_true, List.mem_map]

theorem keysOf_append (m l : StatMap) : keysOf (m ++ l) = keysOf m ++ keysOf l :=
  List.map_append _ _ _

theorem dictGet?_append_left {m : StatMap} (l : StatMap) {k : String}
    (h : k ∈ keysOf m) : dictGet? (m ++ l) k = dictGet? m k := by
  induction m with
  | nil => simp [keysOf] at h
  | cons p rest ih =>
    by_cases hp : p.1 = k
    · simp [dictGet?, List.find?, hp]
    · simp only [keysOf, List.map_cons, List.mem_cons] at h
      rcases h with h | h
      · exact absurd h.symm hp
      · simp only [List.cons_append, dictGet?, List.find?]
        rw [show (decide (p.1 = k)) = false by simp [hp]]
        exact ih h

theorem dictGet?_append_new {m : StatMap} {k : String} (v : Value)
    (h : k ∉ keysOf m) : dictGet? (m ++ [(k, v)]) k = some v := by
  induction m with
  | nil => simp [dictGet?, List.find?]
  | cons p rest ih =>
    simp only [keysOf, List.map_cons, List.mem_cons, not_or] at h
    have hne : ¬ p.1 = k := fun he => h.1 he.symm
    simp only [List.cons_append, dictGet?, List.find?]
    rw [show (decide (p.1 = k)) = false by simp [hne]]
    exact ih h.2

theorem keysOf_dictInsert_sub {m : StatMap} {k k' : String} {v : Value}
    (h : k' ∈ keysOf (dictInsert m k v)) : k' ∈ keysOf m ∨ k' = k := by
  unfold dictInsert at h
  split at h
  · simp only [keysOf, List.map_map, List.mem_map] at h
    obtain ⟨p, hp, he⟩ := h
    by_cases hpk : p.1 = k
    · right
      simpa [hpk] using he.symm
    · left
      simp only [Function.comp_apply, hpk, if_false] at he
      exact List.mem_map.mpr ⟨p, hp, he⟩
  · rw [keysOf_append] at h
    rcases List.mem_append.mp h with h | h
    · exact Or.inl h
    · right
      simpa [keysOf] using h

theorem assignCells_keys_from (pairs : List (String × String)) :
    ∀ (m : StatMap) (k : String), k ∈ keysOf (assignCells m pairs) →
      k ∈ keysOf m ∨ k ∈ pairs.map Prod.fst := by
  induction pairs with
  | nil => intro m k h; exact Or.inl h
  | cons p rest ih =>
    intro m k h
    rcases ih _ k h with h1 | h1
    · rcases keysOf_dictInsert_sub h1 with h2 | h2
      · exact Or.inl h2
      · right
        simp [h2]
    · right
      simp [h1]

theorem fillMissing_keys_mono (reg : Registry) :
    ∀ (m : StatMap) (k : String), k ∈ keysOf m → k ∈ keysOf (fillMissing m reg) := by
  induction reg with
  | nil => intro m k h; exact h
  | cons p rest ih =>
    intro m k h
    apply ih
    split
    · exact h
    · rw [keysOf_append]
      exact List.mem_append.mpr (Or.inl h)

theorem fillMissing_get_preserved (reg : Registry) :
    ∀ (m : StatMap) (k : String), k ∈ keysOf m →
      dictGet? (fillMissing m reg) k = dictGet? m k := by
  induction reg with
  | nil => intro m k _; rfl
  | cons p rest ih =>
    intro m k h
    simp only [fillMissing]
    split
    · exact ih m k h
    · rw [ih _ k (by rw [keysOf_append]; exact List.mem_append.mpr (Or.inl h))]
      exact dictGet?_append_left _ h

theorem fillMissing_mem_uniques (reg : Registry) :
    ∀ (m : StatMap) (u : String), u ∈ uniquesOf reg → u ∈ keysOf (fillMissing m reg) := by
  induction reg with
  | nil => intro m u h; simp [uniquesOf] at h
  | cons p rest ih =>
    intro m u h
    simp only [uniquesOf, List.map_cons, List.mem_cons] at h
    rcases h with h | h
    · subst h
      simp only [fillMissing]
      split_ifs with hc
      · exact fillMissing_keys_mono rest m _ ((containsKey_eq_mem_keysOf m _).mp hc)
      · exact fillMissing_keys_mono rest _ _
          (by rw [keysOf_append]; exact List.mem_append.mpr (Or.inr (by simp [keysOf])))
    · simp only [fillMissing]
      split_ifs <;> exact ih _ u h

theorem fillMissing_zero (reg : Registry) :
    ∀ (m : StatMap) (u : String), u ∈ uniquesOf reg → u ∉ keysOf m →
      dictGet? (fillMissing m reg) u = some (.intV 0) := by
  induction reg with
  | nil => intro m u h; simp [uniquesOf] at h
  | cons p rest ih =>
    intro m u h hnot
    simp only [uniquesOf, List.map_cons, List.mem_cons] at h
    simp only [fillMissing]
    by_cases he : u = p.2.unique
    · subst he
      rw [if_neg (fun hc => hnot ((containsKey_eq_mem_keysOf m _).mp hc))]
      have hmem : p.2.unique ∈ keysOf (m ++ [(p.2.unique, Value.intV 0)]) := by
        rw [keysOf_append]
        exact List.mem_append.mpr (Or.inr (by simp [keysOf]))
      rw [fillMissing_get_preserved rest _ _ hmem]
      exact dictGet?_append_new _ hnot
    · have hu : u ∈ uniquesOf rest := by
        rcases h with h | h
        · exact absurd h he
        · exact h
      split_ifs with hc
      · exact ih m u hu hnot
      · apply ih _ u hu
        rw [keysOf_append]
        intro hmem
        rcases List.mem_append.mp hmem with h1 | h1
        · exact hnot h1
        · apply he
          simpa [keysOf] using h1

theorem fillMissing_keys_from (reg : Registry) :
    ∀ (m : StatMap) (k : String), k ∈ keysOf (fillMissing m reg) →
      k ∈ keysOf m ∨ k ∈ uniquesOf reg := by
  induction reg with
  | nil => intro m k h; exact Or.inl h
  | cons p rest ih =>
    intro m k h
    rcases ih _ k h with h1 | h1
    · revert h1
      split
      · exact fun h1 => Or.inl h1
      · intro h1
        rw [keysOf_append] at h1
        rcases List.mem_append.mp h1 with h2 | h2
        · exact Or.inl h2
        · right
          simp only [uniquesOf, List.map_cons, List.mem_cons]
          left
          simpa [keysOf] using h2
    · right
      simp only [uniquesOf, List.map_cons, List.mem_cons]
      exact Or.inr h1

theorem regLookup_mem {m : Registry} {k : HeaderKey} {e : SchemaEntry}
    (h : regLookup m k = some e) : (k, e) ∈ m := by
  unfold regLookup at h
  obtain ⟨p, hp, he⟩ := Option.map_eq_some'.mp h
  have hk : p.1 = k := by simpa using List.find?_some hp
  have : p = (k, e) := by
    cases p
    simp_all
  rw [← this]
  exact List.mem_of_find?_eq_some hp

theorem resolveHeaders_mem (reg : Registry) (ts : List HeaderTriple) :
    ∀ h ∈ (resolveHeaders reg ts).1,
      h ∈ uniquesOf reg
      ∨ ∃ t ∈ ts, regLookup reg (t.1, t.2.1) = none ∧ h = fallbackName t.1 t.2.1 := by
  induction ts with
  | nil => intro h hmem; simp [resolveHeaders] at hmem
  | cons t rest ih =>
    intro h hmem
    simp only [resolveHeaders] at hmem
    rcases hlk : regLookup reg (t.1, t.2.1) with _ | info
    · rw [hlk] at hmem
      simp only [List.mem_cons] at hmem
      rcases hmem with hmem | hmem
      · exact Or.inr ⟨t, List.mem_cons_self t rest, hlk, hmem⟩
      · rcases ih h hmem with h1 | ⟨t', ht', h2, h3⟩
        · exact Or.inl h1
        · exact Or.inr ⟨t', List.mem_cons_of_mem t ht', h2, h3⟩
    · rw [hlk] at hmem
      simp only [List.mem_cons] at hmem
      rcases hmem with hmem | hmem
      · left
        subst hmem
        exact List.mem_map.mpr ⟨((t.1, t.2.1), info), regLookup_mem hlk, rfl⟩
      · rcases ih h hmem with h1 | ⟨t', ht', h2, h3⟩
        · exact Or.inl h1
        · exact Or.inr ⟨t', List.mem_cons_of_mem t ht', h2, h3⟩

/-- C6: a normalized row's stats dict contains every canonical name known to
the registry (those absent from the row inserted with int 0), and every key of
the dict is either a registry canonical name or the fallback name of a header
triple the registry does not know. -/
theorem schema_completeness (reg : Registry) (pairs : List HeaderTriple)
    (cells : List String) :
    (∀ u ∈ uniquesOf reg,
      u ∈ keysOf (fillMissing (rowStats (resolveHeaders reg pairs).1 cells) reg))
    ∧ (∀ u ∈ uniquesOf reg,
        u ∉ keysOf (rowStats (resolveHeaders reg pairs).1 cells) →
        dictGet? (fillMissing (rowStats (resolveHeaders reg pairs).1 cells) reg) u
          = some (.intV 0))
    ∧ (∀ s ∈ keysOf (fillMissing (rowStats (resolveHeaders reg pairs).1 cells) reg),
        s ∈ uniquesOf reg
        ∨ ∃ t ∈ pairs, regLookup reg (t.1, t.2.1) = none
            ∧ s = fallbackName t.1 t.2.1) := by
  refine ⟨fun u hu => fillMissing_mem_uniques reg _ u hu,
    fun u hu hnot => fillMissing_zero reg _ u hu hnot,
    fun s hs => ?_⟩
  rcases fillMissing_keys_from reg _ s hs with h1 | h1
  · rcases assignCells_keys_from _ _ s h1 with h2 | h2
    · simp [keysOf] at h2
    · obtain ⟨pr, hpr, he⟩ := List.mem_map.mp h2
      obtain ⟨a, b⟩ := pr
      have hmem : a ∈ (resolveHeaders reg pairs).1 := (List.of_mem_zip hpr).1
      exact resolveHeaders_mem reg pairs s (by rw [← he]; exact hmem)
  · exact Or.inl h1

/-- One normalized game record (lines 283-291). -/
structure GameRecord where
  week : ℤ
  date : Value
  team : Value
  opponent : Value
  home : Bool
  stats : StatMap
  fantasy : Fantasy
deriving DecidableEq, Repr

/-- Python `a or b` on an optional dict lookup: `b` when the lookup is missing
or falsy. -/
def pyOrV (a : Option Value) (b : Value) : Value :=
  match a with
  | some v => if falsy v then b else v
  | none => b

/-- A body row: whether its HTML class contains "thead", and its stripped cell
texts (`th` and `td` together, in order). -/
structure Row where
  theadClass : Bool
  cells : List String
deriving DecidableEq, Repr

/-- The per-row processing of `scrape_gamelog` (lines 255-292): skip class-thead
rows, require a digit first cell, build the stats dict from the remaining cells
(zero-filling from the registry), require a truthy all-digits week, then emit
the record. -/
def normalizeRow (reg : Registry) (headers : List String) (row : Row) :
    Option GameRecord :=
  if row.theadClass then none
  else
    match row.cells with
    | [] => none
    | c0 :: rest =>
      if isdigitStr c0 then
        let gd := fillMissing (rowStats headers rest) reg
        match dictGet? gd "Week" with
        | none => none
        | some wv =>
          if falsy wv || !(pyStrIsdigit wv) then none
          else some {
            week := pyInt wv
            date := dictGetD gd "Date" (.strV "")
            team := pyOrV (dictGet? gd "Tm") (pyOrV (dictGet? gd "Team") (.strV ""))
            opponent := dictGetD gd "Opp" (.strV "")
            home := decide (dictGetD gd "game_location" (.strV "") ≠ .strV "@")
            stats := gd
            fantasy := calc_fantasy gd }
      else none

/-- A value that can appear in a row's stats dict: an image of the cell
coercion, or the zero-fill int 0. -/
def valOk (v : Value) : Prop := (∃ s, v = coerce s) ∨ v = .intV 0

theorem dictInsert_values {m : StatMap} {k : String} {v : Value}
    (hm : ∀ p ∈ m, valOk p.2) (hv : valOk v) :
    ∀ p ∈ dictInsert m k v, valOk p.2 := by
  intro p hp
  unfold dictInsert at hp
  split at hp
  · obtain ⟨q, hq, he⟩ := List.mem_map.mp hp
    by_cases hqk : q.1 = k
    · rw [if_pos hqk] at he
      rw [← he]
      exact hv
    · rw [if_neg hqk] at he
      rw [← he]
      exact hm q hq
  · rcases List.mem_append.mp hp with h | h
    · exact hm p h
    · have : p = (k, v) := by simpa using h
      rw [this]
      exact hv

theorem assignCells_values (pairs : List (String × String)) :
    ∀ (m : StatMap), (∀ p ∈ m, valOk p.2) →
      ∀ p ∈ assignCells m pairs, valOk p.2 := by
  induction pairs with
  | nil => intro m hm p hp; exact hm p hp
  | cons pr rest ih =>
    intro m hm p hp
    exact ih _ (dictInsert_values hm (Or.inl ⟨pr.2, rfl⟩)) p hp

theorem fillMissing_values (reg : Registry) :
    ∀ (m : StatMap), (∀ p ∈ m, valOk p.2) →
      ∀ p ∈ fillMissing m reg, valOk p.2 := by
  induction reg with
  | nil => intro m hm p hp; exact hm p hp
  | cons e rest ih =>
    intro m hm p hp
    simp only [fillMissing] at hp
    revert hp
    split_ifs with hc
    · exact ih m hm p
    · refine ih _ (fun q hq => ?_) p
      rcases List.mem_append.mp hq with h | h
      · exact hm q h
      · have : q = (e.2.unique, Value.intV 0) := by simpa using h
        rw [this]
        exact Or.inr rfl

theorem dictGet?_mem {m : StatMap} {k : String} {v : Value}
    (h : dictGet? m k = some v) : ∃ p ∈ m, p.2 = v := by
  unfold dictGet? at h
  obtain ⟨p, hp, he⟩ := Option.map_eq_some'.mp h
  exact ⟨p, List.mem_of_find?_eq_some hp, he⟩

theorem parseInt_of_digits {s : String} (h : isdigitStr s = true) :
    parseInt s = some ((digitsToNat s.data : ℕ) : ℤ) := by
  unfold isdigitStr at h
  cases hd : s.data with
  | nil => rw [hd] at h; simp at h
  | cons c rest =>
    rw [hd] at h
    simp only [Bool.and_eq_true, List.all_cons] at h
    have hc : c.isDigit = true := h.2.1
    have hcm : ¬ c = '-' := by
      intro he
      rw [he] at hc
      exact absurd hc (by decide)
    have hcp : ¬ c = '+' := by
      intro he
      rw [he] at hc
      exact absurd hc (by decide)
    unfold parseInt
    rw [hd]
    dsimp only
    rw [if_neg hcm, if_neg hcp, if_pos (by simp [hc, h.2.2])]

theorem coerce_of_digits {s : String} (h : isdigitStr s = true) :
    coerce s = .intV ((digitsToNat s.data : ℕ) : ℤ) := by
  have hall : s.data.all Char.isDigit = true := by
    unfold isdigitStr at h
    exact (Bool.and_eq_true ..).mp h |>.2
  have hnd : s.data.contains '.' = false := by
    cases hc : s.data.contains '.'
    · rfl
    · exfalso
      have hmem : '.' ∈ s.data := List.elem_iff.mp hc
      have := List.all_eq_true.mp hall '.' hmem
      exact absurd this (by decide)
  unfold coerce
  rw [hnd]
  simp only [Bool.false_eq_true, if_false, parseInt_of_digits h]

theorem valOk_strV_not_digit {s : String} (h : valOk (.strV s))
    (hd : isdigitStr s = true) : False := by
  rcases h with ⟨s0, he⟩ | he
  · unfold coerce at he
    by_cases hc : s0.data.contains '.' = true
    · rw [if_pos hc] at he
      rcases hf : parseFloat s0 with _ | q
      · rw [hf] at he
        have hss : s = s0 := by
          injection he
        subst hss
        unfold isdigitStr at hd
        simp only [Bool.and_eq_true] at hd
        have hmem : '.' ∈ s.data := List.elem_iff.mp hc
        have := List.all_eq_true.mp hd.2 '.' hmem
        exact absurd this (by decide)
      · rw [hf] at he
        exact Value.noConfusion he
    · rw [if_neg hc] at he
      rcases hf : parseInt s0 with _ | n
      · rw [hf] at he
        have hss : s = s0 := by
          injection he
        subst hss
        rw [parseInt_of_digits hd] at hf
        exact Option.noConfusion hf
      · rw [hf] at he
        exact Value.noConfusion he
  · exact Value.noConfusion he

/-- C7: a body row produces a game record only if its first cell text is a
(nonnegative) digit string and the resolved Week value is a positive integer
(the record's week equals it); moreover the first cell's contents never
influence the produced record — it is only tested, not emitted. -/
theorem row_filtering (reg : Registry) (headers : List String) :
    (∀ (row : Row) (g : GameRecord), normalizeRow reg headers row = some g →
      (∃ c0 rest, row.cells = c0 :: rest ∧ isdigitStr c0 = true)
      ∧ 0 < g.week
      ∧ ∃ n : ℤ, dictGet? g.stats "Week" = some (.intV n) ∧ 0 < n ∧ g.week = n)
    ∧ (∀ c c' rest, isdigitStr c = true → isdigitStr c' = true →
        normalizeRow reg headers ⟨false, c :: rest⟩
          = normalizeRow reg headers ⟨false, c' :: rest⟩) := by
  constructor
  · rintro ⟨tc, cells⟩ g hg
    unfold normalizeRow at hg
    cases tc with
    | true => simp at hg
    | false =>
      simp only [Bool.false_eq_true, if_false] at hg
      cases cells with
      | nil => exact Option.noConfusion hg
      | cons c0 rest =>
        dsimp only at hg
        by_cases hd : isdigitStr c0 = true
        · rw [if_pos hd] at hg
          refine ⟨⟨c0, rest, rfl, hd⟩, ?_⟩
          rcases hwk : dictGet? (fillMissing (rowStats headers rest) reg) "Week"
            with _ | wv
          · rw [hwk] at hg
            exact Option.noConfusion hg
          · rw [hwk] at hg
            dsimp only at hg
            by_cases hchk : (falsy wv || !(pyStrIsdigit wv)) = true
            · rw [if_pos hchk] at hg
              exact Option.noConfusion hg
            · rw [if_neg hchk] at hg
              have hrec := Option.some.inj hg
              simp only [Bool.or_eq_true, not_or, Bool.not_eq_true] at hchk
              have hfal : falsy wv = false := hchk.1
              have hdig : pyStrIsdigit wv = true := by
                simpa using hchk.2
              have hok : valOk wv := by
                obtain ⟨p, hp, he⟩ := dictGet?_mem hwk
                rw [← he]
                exact fillMissing_values reg _
                  (assignCells_values _ [] (by intro p hp; simp at hp)) p hp
              cases wv with
              | intV n =>
                have hn0 : ¬ n = 0 := by
                  intro he
                  rw [he] at hfal
                  exact absurd hfal (by decide)
                have hnn : 0 ≤ n := by
                  simpa [pyStrIsdigit] using hdig
                have hpos : 0 < n := lt_of_le_of_ne hnn (fun he => hn0 he.symm)
                constructor
                · rw [← hrec]
                  exact hpos
                · refine ⟨n, ?_, hpos, by rw [← hrec]; rfl⟩
                  rw [← hrec]
                  exact hwk
              | floatV q =>
                exact absurd hdig (by simp [pyStrIsdigit])
              | strV s =>
                exact absurd (valOk_strV_not_digit hok (by simpa [pyStrIsdigit] using hdig))
                  (fun h => h)
        · rw [if_neg hd] at hg
          exact Option.noConfusion hg
  · intro c c' rest hc hc'
    unfold normalizeRow
    simp only [Bool.false_eq_true, if_false, hc, hc', if_true]

/-- Concrete registry used to witness C7. -/
def wReg : Registry := [(("", "Week"), ⟨"Week", ""⟩)]

/-- The record C7's witness row produces. -/
def wRecord : GameRecord :=
  { week := 5, date := .strV "", team := .strV "", opponent := .strV "",
    home := true, stats := [("Week", .intV 5)],
    fantasy := calc_fantasy [("Week", .intV 5)] }

theorem row_filtering_witness :
    (0 : ℤ) < wRecord.week ∧
    normalizeRow wReg ["Week"] ⟨false, ["1", "5"]⟩
      = normalizeRow wReg ["Week"] ⟨false, ["7", "5"]⟩ :=
  ⟨((row_filtering wReg ["Week"]).1 ⟨false, ["1", "5"]⟩ wRecord rfl).2.1,
   (row_filtering wReg ["Week"]).2 "1" "7" ["5"] (by decide) (by decide)⟩

/-- Concrete registry used to witness C6. -/
def c6Reg : Registry := [(("", "Week"), ⟨"Week", ""⟩)]

theorem schema_completeness_witness :
    "Week" ∈ keysOf (fillMissing (rowStats (resolveHeaders c6Reg []).1 []) c6Reg)
    ∧ dictGet? (fillMissing (rowStats (resolveHeaders c6Reg []).1 []) c6Reg) "Week"
        = some (.intV 0) :=
  ⟨(schema_completeness c6Reg [] []).1 "Week" (by decide),
   (schema_completeness c6Reg [] []).2.1 "Week" (by decide) (by decide)⟩

/-! ### Runtime fallback extension (C2) -/

/-- C2 counterexample: with an empty registry, the unknown header
(Passing, Yds) is re-appended to the schema log by each document that contains
it — two normalization calls in one run (the code passes the same unchanged
`metadata_map` to every `scrape_gamelog` call and never inserts into it)
append two identical lines, not one line per distinct pair per run. -/
theorem fallback_extension_counterexample :
    regLookup ([] : Registry) ("Passing", "Yds") = none
    ∧ (resolveHeaders [] [("Passing", "Yds", "t")]).2
        ++ (resolveHeaders [] [("Passing", "Yds", "t")]).2
      = ["Passing,Yds:Passing_Yds | t", "Passing,Yds:Passing_Yds | t"] := by
  decide

/-- C2 amended: an unknown (category, column) pair resolves to the fallback
name `(category ++ "_" ++ column).strip("_")` and appends exactly one schema
log line per encounter (not once per distinct pair per run: the in-memory
registry is never extended, so the same unknown pair re-appends in every later
document); with an empty category the fallback is the underscore-stripped
column. -/
theorem fallback_extension_amended (reg : Registry) (ts : List HeaderTriple) :
    (resolveHeaders reg ts).1 = ts.map (fun t =>
        match regLookup reg (t.1, t.2.1) with
        | some info => info.unique
        | none => fallbackName t.1 t.2.1)
    ∧ (resolveHeaders reg ts).2 = (ts.filter
        (fun t => (regLookup reg (t.1, t.2.1)).isNone)).map
        (fun t => logLine t.1 t.2.1 (fallbackName t.1 t.2.1) t.2.2)
    ∧ ∀ col : String, fallbackName "" col = stripUnderscores col := by
  refine ⟨?_, ?_, ?_⟩
  · induction ts with
    | nil => rfl
    | cons t rest ih =>
      simp only [resolveHeaders, List.map_cons]
      rcases h : regLookup reg (t.1, t.2.1) with _ | info <;> simp [h, ih]
  · induction ts with
    | nil => rfl
    | cons t rest ih =>
      simp only [resolveHeaders, List.filter_cons]
      rcases h : regLookup reg (t.1, t.2.1) with _ | info <;> simp [h, ih]
  · intro col
    unfold fallbackName stripUnderscores
    have hd : ("" ++ "_" ++ col).data = '_' :: col.data := by
      simp [String.data_append]
    rw [hd]
    simp [List.dropWhile]

/-! ### Seeding across positions (get_table_metadata_for_positions, C9) -/

/-- `merged.update(m)` folded over the per-position metadata maps, in position
order (lines 126-128). -/
def mergeRegistries (found : List Registry) : Registry :=
  found.foldl (fun acc m => m.foldl (fun a p => regInsert a p.1 p.2) acc) []

/-- The schema-log lines written at the end of seeding (lines 131-136).  The
loop at line 133 iterates `meta.items()` — the stale loop variable holding the
LAST position's metadata — not `merged.items()`; with no positions found the
Python would raise NameError (modelled as no lines, unreachable here). -/
def metadataFileLines (found : List Registry) : List String :=
  match found.getLast? with
  | some meta => meta.map (fun p => logLine p.1.1 p.1.2 p.2.unique p.2.tip)
  | none => []

def posMetaA : Registry := [(("A", "X"), ⟨"X", "t1"⟩)]
def posMetaB : Registry := [(("B", "Y"), ⟨"Y", "t2"⟩)]
def posMetaA2 : Registry := [(("A", "X"), ⟨"X", "t3"⟩)]

/-- C9: the returned registry is the position-wise merge with later positions
overwriting identical keys, but the schema log written after seeding has one
line per entry of the LAST position's metadata only — with two positions
carrying disjoint keys, the merged registry has two entries while the file has
a single line (the code writes from the stale loop variable `meta`, although
its own log message reports `len(merged)` headers). -/
theorem metadata_file_bug :
    mergeRegistries [posMetaA, posMetaB]
      = [(("A", "X"), ⟨"X", "t1"⟩), (("B", "Y"), ⟨"Y", "t2"⟩)]
    ∧ mergeRegistries [posMetaA, posMetaA2] = [(("A", "X"), ⟨"X", "t3"⟩)]
    ∧ metadataFileLines [posMetaA, posMetaB] = ["B,Y:Y | t2"]
    ∧ (metadataFileLines [posMetaA, posMetaB]).length
        ≠ (mergeRegistries [posMetaA, posMetaB]).length := by
  decide

/-! ### Orchestration (scrape_player, scrape_wrapper, the two entry points) -/

/-- The outcome of fetching one year's game log inside `scrape_player`: the
fetch raises (`requests.raise_for_status`), the page lacks the stats table
(`scrape_gamelog` returns None), or normalization succeeds. -/
inductive YearOutcome where
  | fetchErr
  | noTable
  | ok (games : List GameRecord)
deriving DecidableEq

/-- A player work unit: id, name, and the (year, outcome) environment for the
player's gamelog pages, in the sorted year order `scrape_player` iterates. -/
structure WorkUnit where
  pid : String
  name : String
  years : List (ℕ × YearOutcome)
deriving DecidableEq

/-- A player record as assembled by `scrape_player`. -/
structure PlayerData where
  name : String
  pid : String
  years : List (ℕ × List GameRecord)
deriving DecidableEq

/-- The year loop of `scrape_player` (lines 203-209): a missing table skips the
year, a success appends it, and a fetch error raises out of the whole loop
(`Except.error`), discarding the accumulated years. -/
def scrapeYears (acc : List (ℕ × List GameRecord)) :
    List (ℕ × YearOutcome) → Except Unit (List (ℕ × List GameRecord))
  | [] => .ok acc
  | (_, .fetchErr) :: _ => .error ()
  | (_, .noTable) :: rest => scrapeYears acc rest
  | (y, .ok gs) :: rest => scrapeYears (acc ++ [(y, gs)]) rest

/-- `scrape_player` (lines 166-211): `none` for an already-seen id, otherwise
the id is marked seen and the years scraped; exceptions propagate to the
caller.  Second component: the updated seen set. -/
def scrape_player (seen : List String) (u : WorkUnit) :
    Except Unit (Option PlayerData) × List String :=
  if u.pid ∈ seen then (.ok none, seen)
  else
    match scrapeYears [] u.years with
    | .error e => (.error e, u.pid :: seen)
    | .ok ys => (.ok (some ⟨u.name, u.pid, ys⟩), u.pid :: seen)

/-- `scrape_wrapper` (scrape_parallel.py lines 16-29): every exception is
caught and the unit yields no artifact; a truthy result is persisted.  First
component: the artifact persisted for this unit, if any. -/
def scrape_wrapper (seen : List String) (u : WorkUnit) :
    Option PlayerData × List String :=
  match scrape_player seen u with
  | (.error _, seen2) => (none, seen2)
  | (.ok none, seen2) => (none, seen2)
  | (.ok (some d), seen2) => (some d, seen2)

/-- One worker's pass over its share of the pool's units, recording each
unit's persisted artifact (or `none`), threading the worker-process-local
seen set. -/
def worker_results (seen : List String) : List WorkUnit → List (Option PlayerData)
  | [] => []
  | u :: rest =>
    (scrape_wrapper seen u).1 :: worker_results (scrape_wrapper seen u).2 rest

/-- The year entries of a unit that scrape successfully. -/
def successfulYears (years : List (ℕ × YearOutcome)) : List (ℕ × List GameRecord) :=
  years.filterMap (fun p => match p.2 with | .ok gs => some (p.1, gs) | _ => none)

theorem scrapeYears_no_fetchErr :
    ∀ (years : List (ℕ × YearOutcome)) (acc : List (ℕ × List GameRecord)),
      (∀ y o, (y, o) ∈ years → o ≠ .fetchErr) →
      scrapeYears acc years = .ok (acc ++ successfulYears years) := by
  intro years
  induction years with
  | nil => intro acc _; simp [scrapeYears, successfulYears]
  | cons p rest ih =>
    intro acc h
    obtain ⟨y, o⟩ := p
    cases o with
    | fetchErr => exact absurd rfl (h y .fetchErr (List.mem_cons_self _ _))
    | noTable =>
      rw [show scrapeYears acc ((y, YearOutcome.noTable) :: rest) = scrapeYears acc rest
        from rfl]
      rw [ih acc (fun y' o' hm => h y' o' (List.mem_cons_of_mem _ hm))]
      simp [successfulYears]
    | ok gs =>
      rw [show scrapeYears acc ((y, YearOutcome.ok gs) :: rest)
        = scrapeYears (acc ++ [(y, gs)]) rest from rfl]
      rw [ih _ (fun y' o' hm => h y' o' (List.mem_cons_of_mem _ hm))]
      simp [successfulYears]

theorem scrapeYears_fetchErr :
    ∀ (years : List (ℕ × YearOutcome)) (acc : List (ℕ × List GameRecord)),
      (∃ y, (y, YearOutcome.fetchErr) ∈ years) →
      scrapeYears acc years = .error () := by
  intro years
  induction years with
  | nil => rintro acc ⟨y, hy⟩; simp at hy
  | cons p rest ih =>
    rintro acc ⟨y, hy⟩
    obtain ⟨y', o⟩ := p
    cases o with
    | fetchErr => rfl
    | noTable =>
      rcases List.mem_cons.mp hy with h | h
      · exact absurd (congrArg Prod.snd h) (by simp)
      · exact ih acc ⟨y, h⟩
    | ok gs =>
      rcases List.mem_cons.mp hy with h | h
      · exact absurd (congrArg Prod.snd h) (by simp)
      · exact ih _ ⟨y, h⟩

/-- The concrete unit refuting C3's persistence clause: 2010 succeeds, then
2011 fails with a fetch error. -/
def failUnit : WorkUnit := ⟨"p1", "P", [(2010, .ok []), (2011, .fetchErr)]⟩

/-- C3 counterexample: for a player whose 2010 log scraped successfully before
a 2011 fetch error, the exception aborts the whole unit inside the year loop
and `scrape_wrapper` persists nothing — not a PlayerRecord containing exactly
the completed year 2010 as the claim states. -/
theorem failure_containment_counterexample :
    (scrape_wrapper [] failUnit).1 = none
    ∧ (2010, YearOutcome.ok ([] : List GameRecord)) ∈ failUnit.years
    ∧ (scrape_wrapper [] failUnit).1 ≠ some ⟨"P", "p1", [(2010, [])]⟩ := by
  refine ⟨rfl, by decide, ?_⟩
  rw [show (scrape_wrapper [] failUnit).1 = none from rfl]
  exact Option.noConfusion

/-- C3 amended: the wrapper contains every per-unit failure, so the run
processes all units regardless of individual failures; a unit whose per-year
failures are all missing-table failures is persisted with exactly the
successful years; but a fetch error in any year aborts that unit's year loop
and nothing is persisted for it, losing the years that had completed. -/
theorem failure_containment_amended :
    (∀ (seen : List String) (units : List WorkUnit),
      (worker_results seen units).length = units.length)
    ∧ (∀ (seen : List String) (u : WorkUnit), u.pid ∉ seen →
        (∀ y o, (y, o) ∈ u.years → o ≠ .fetchErr) →
        (scrape_wrapper seen u).1 = some ⟨u.name, u.pid, successfulYears u.years⟩)
    ∧ (∀ (seen : List String) (u : WorkUnit),
        (∃ y, (y, YearOutcome.fetchErr) ∈ u.years) →
        (scrape_wrapper seen u).1 = none) := by
  refine ⟨?_, ?_, ?_⟩
  · intro seen units
    induction units generalizing seen with
    | nil => rfl
    | cons u rest ih => simp [worker_results, ih]
  · intro seen u hseen hno
    unfold scrape_wrapper scrape_player
    rw [if_neg hseen, scrapeYears_no_fetchErr u.years [] hno]
    rfl
  · intro seen u hex
    unfold scrape_wrapper scrape_player
    by_cases hseen : u.pid ∈ seen
    · rw [if_pos hseen]
    · rw [if_neg hseen, scrapeYears_fetchErr u.years [] hex]

/-- The concrete unit witnessing the amended C3: a missing table in 2010, a
success in 2011. -/
def okUnit : WorkUnit := ⟨"p2", "Q", [(2010, .noTable), (2011, .ok [])]⟩

theorem failure_containment_amended_witness :
    (scrape_wrapper [] okUnit).1 = some ⟨"Q", "p2", [(2011, [])]⟩
    ∧ (scrape_wrapper [] failUnit).1 = none :=
  ⟨failure_containment_amended.2.1 [] okUnit (by decide)
    (by
      intro y o hm
      simp only [okUnit, List.mem_cons, List.not_mem_nil, or_false] at hm
      rcases hm with h | h <;> (cases h; decide)),
   failure_containment_amended.2.2 [] failUnit ⟨2011, by decide⟩⟩

/-! ### Deduplication (C8): serial main vs the multiprocessing pool -/

/-- Occurrences of an id in a persisted-ids list. -/
def countOcc (p : String) (l : List String) : ℕ :=
  (l.filter (fun x => x = p)).length

theorem countOcc_nil (p : String) : countOcc p [] = 0 := rfl

theorem countOcc_cons (p x : String) (l : List String) :
    countOcc p (x :: l) = (if x = p then 1 else 0) + countOcc p l := by
  by_cases h : x = p <;> simp [countOcc, List.filter_cons, h, Nat.add_comm]

theorem countOcc_append (p : String) (l1 l2 : List String) :
    countOcc p (l1 ++ l2) = countOcc p l1 + countOcc p l2 := by
  simp [countOcc, List.filter_append]

/-- The serial player loop of the fantasy_data_scrape main block (lines
336-346): skip seen ids, scrape, persist; exceptions are not caught there, so
a fetch error ends the run.  Returns (persisted ids, final seen, crashed). -/
def serialPlayers (seen : List String) :
    List WorkUnit → List String × List String × Bool
  | [] => ([], seen, false)
  | u :: rest =>
    if u.pid ∈ seen then serialPlayers seen rest
    else
      match scrape_player seen u with
      | (.error _, seen2) => ([], seen2, true)
      | (.ok none, seen2) => serialPlayers seen2 rest
      | (.ok (some d), seen2) =>
        let r := serialPlayers seen2 rest
        (d.pid :: r.1, r.2.1, r.2.2)

/-- The serial year loop: later years run only if the run has not crashed. -/
def serialYears (seen : List String) : List (List WorkUnit) → List String
  | [] => []
  | ps :: rest =>
    let r := serialPlayers seen ps
    if r.2.2 then r.1 else r.1 ++ serialYears r.2.1 rest

/-- All ids persisted by one serial run. -/
def serial_run (yearLists : List (List WorkUnit)) : List String :=
  serialYears [] yearLists

theorem scrape_player_seen (seen : List String) (u : WorkUnit) :
    (scrape_player seen u).2 = if u.pid ∈ seen then seen else u.pid :: seen := by
  by_cases h : u.pid ∈ seen
  · simp [scrape_player, h]
  · simp only [scrape_player, if_neg h]
    rcases hy : scrapeYears [] u.years with e | ys <;> simp [hy, h]

theorem scrape_player_some {seen : List String} {u : WorkUnit} {d : PlayerData}
    {seen2 : List String} (h : scrape_player seen u = (.ok (some d), seen2)) :
    d.pid = u.pid ∧ u.pid ∉ seen ∧ seen2 = u.pid :: seen := by
  unfold scrape_player at h
  by_cases hs : u.pid ∈ seen
  · rw [if_pos hs] at h
    exact absurd (congrArg Prod.fst h) (by simp)
  · rw [if_neg hs] at h
    rcases hy : scrapeYears [] u.years with e | ys <;> rw [hy] at h <;> dsimp only at h
    · exact absurd (congrArg Prod.fst h) (by simp)
    · have h1 := Option.some.inj (Except.ok.inj (congrArg Prod.fst h))
      refine ⟨?_, hs, (congrArg Prod.snd h).symm⟩
      rw [← h1]

theorem serialPlayers_seen_mono :
    ∀ (ps : List WorkUnit) (seen : List String) (q : String), q ∈ seen →
      q ∈ (serialPlayers seen ps).2.1 := by
  intro ps
  induction ps with
  | nil => intro seen q hq; exact hq
  | cons u rest ih =>
    intro seen q hq
    unfold serialPlayers
    split_ifs with h
    · exact ih seen q hq
    · rcases hp : scrape_player seen u with ⟨r, seen2⟩
      have h2 : seen2 = u.pid :: seen := by
        have := scrape_player_seen seen u
        rw [hp] at this
        dsimp only at this
        rw [if_neg h] at this
        exact this
      have hq2 : q ∈ seen2 := by rw [h2]; exact List.mem_cons_of_mem _ hq
      cases r with
      | error e => exact hq2
      | ok o =>
        cases o with
        | none => exact ih seen2 q hq2
        | some d => exact ih seen2 q hq2

theorem serialPlayers_seen_zero :
    ∀ (ps : List WorkUnit) (seen : List String) (p : String), p ∈ seen →
      countOcc p (serialPlayers seen ps).1 = 0 := by
  intro ps
  induction ps with
  | nil => intro seen p _; rfl
  | cons u rest ih =>
    intro seen p hp
    unfold serialPlayers
    split_ifs with h
    · exact ih seen p hp
    · rcases hp2 : scrape_player seen u with ⟨r, seen2⟩
      cases r with
      | error e => rfl
      | ok o =>
        have hs2 : seen2 = u.pid :: seen := by
          have := scrape_player_seen seen u
          rw [hp2] at this
          dsimp only at this
          rw [if_neg h] at this
          exact this
        have hpm : p ∈ seen2 := by rw [hs2]; exact List.mem_cons_of_mem _ hp
        cases o with
        | none => exact ih seen2 p hpm
        | some d =>
          dsimp only
          have hd := scrape_player_some hp2
          have hne : ¬ d.pid = p := by
            intro he
            exact h (by rw [← hd.1, he]; exact hp)
          rw [countOcc_cons, if_neg hne, ih seen2 p hpm]

theorem serialPlayers_le_one :
    ∀ (ps : List WorkUnit) (seen : List String) (p : String),
      countOcc p (serialPlayers seen ps).1 ≤ 1 := by
  intro ps
  induction ps with
  | nil => intro seen p; exact Nat.zero_le 1
  | cons u rest ih =>
    intro seen p
    unfold serialPlayers
    split_ifs with h
    · exact ih seen p
    · rcases hp2 : scrape_player seen u with ⟨r, seen2⟩
      cases r with
      | error e => exact Nat.zero_le 1
      | ok o =>
        cases o with
        | none => exact ih seen2 p
        | some d =>
          dsimp only
          have hd := scrape_player_some hp2
          by_cases hdp : d.pid = p
          · have hpm : p ∈ seen2 := by
              rw [hd.2.2, ← hdp, hd.1]
              exact List.mem_cons_self _ _
            rw [countOcc_cons, if_pos hdp, serialPlayers_seen_zero rest seen2 p hpm]
          · rw [countOcc_cons, if_neg hdp]
            simpa using ih seen2 p

theorem serialPlayers_not_final_zero :
    ∀ (ps : List WorkUnit) (seen : List String) (p : String),
      p ∉ (serialPlayers seen ps).2.1 →
      countOcc p (serialPlayers seen ps).1 = 0 := by
  intro ps
  induction ps with
  | nil => intro seen p _; rfl
  | cons u rest ih =>
    intro seen p hnf
    unfold serialPlayers at hnf ⊢
    split_ifs at hnf ⊢ with h
    · exact ih seen p hnf
    · rcases hp2 : scrape_player seen u with ⟨r, seen2⟩
      rw [hp2] at hnf
      cases r with
      | error e => rfl
      | ok o =>
        cases o with
        | none => exact ih seen2 p hnf
        | some d =>
          dsimp only at hnf ⊢
          have hd := scrape_player_some hp2
          have hu2 : u.pid ∈ seen2 := by
            rw [hd.2.2]
            exact List.mem_cons_self _ _
          have hup : u.pid ∈ (serialPlayers seen2 rest).2.1 :=
            serialPlayers_seen_mono rest seen2 u.pid hu2
          have hne : ¬ d.pid = p := by
            intro he
            exact hnf (by rw [← he, hd.1]; exact hup)
          rw [countOcc_cons, if_neg hne, ih seen2 p hnf]

theorem serialYears_seen_zero :
    ∀ (yls : List (List WorkUnit)) (seen : List String) (p : String), p ∈ seen →
      countOcc p (serialYears seen yls) = 0 := by
  intro yls
  induction yls with
  | nil => intro seen p _; rfl
  | cons ps rest ih =>
    intro seen p hp
    unfold serialYears
    dsimp only
    split_ifs with h
    · exact serialPlayers_seen_zero ps seen p hp
    · rw [countOcc_append, serialPlayers_seen_zero ps seen p hp,
        ih _ p (serialPlayers_seen_mono ps seen p hp)]

theorem serialYears_le_one :
    ∀ (yls : List (List WorkUnit)) (seen : List String) (p : String),
      countOcc p (serialYears seen yls) ≤ 1 := by
  intro yls
  induction yls with
  | nil => intro seen p; exact Nat.zero_le 1
  | cons ps rest ih =>
    intro seen p
    unfold serialYears
    dsimp only
    split_ifs with h
    · exact serialPlayers_le_one ps seen p
    · rw [countOcc_append]
      by_cases hz : countOcc p (serialPlayers seen ps).1 = 0
      · rw [hz]
        simpa using ih (serialPlayers seen ps).2.1 p
      · have hmem : p ∈ (serialPlayers seen ps).2.1 := by
          by_contra hn
          exact hz (serialPlayers_not_final_zero ps seen p hn)
        rw [serialYears_seen_zero rest _ p hmem]
        simpa using serialPlayers_le_one ps seen p

/-- One row of `get_players_for_year`'s result (fantasy_data_scrape.py line
162): exactly the three fields (player_id, player_name, player_link). -/
structure PlayerRow where
  pid : String
  name : String
  link : String
deriving DecidableEq

/-- The field tuple of a row, as the iteration at scrape_parallel.py line 43
receives it. -/
def rowFields (r : PlayerRow) : List String := [r.pid, r.name, r.link]

/-- Python tuple unpacking into the four targets `pid, name, _, url` of
scrape_parallel.py line 43: succeeds only on a 4-field tuple, any other arity
raises ValueError. -/
def unpack4 (fields : List String) :
    Except Unit (String × String × String × String) :=
  match fields with
  | [a, b, c, d] => .ok (a, b, c, d)
  | _ => .error ()

/-- A unit appended to `all_players` at line 44: (pid, name, url, metadata_map). -/
abbrev QueuedUnit := String × String × String × Registry

/-- The inner collection loop over one year's rows (scrape_parallel.py lines
43-44): unpack each row into four targets, appending a unit; the first arity
mismatch raises out of `main`. -/
def collectPlayers (reg : Registry) : List PlayerRow → Except Unit (List QueuedUnit)
  | [] => .ok []
  | r :: rest =>
    match unpack4 (rowFields r) with
    | .error e => .error e
    | .ok (pid, name, _, url) =>
      match collectPlayers reg rest with
      | .error e => .error e
      | .ok us => .ok ((pid, name, url, reg) :: us)

/-- The year loop of scrape_parallel.main (lines 38-44). -/
def collect_units (reg : Registry) : List (List PlayerRow) → Except Unit (List QueuedUnit)
  | [] => .ok []
  | ps :: rest =>
    match collectPlayers reg ps with
    | .error e => .error e
    | .ok us =>
      match collect_units reg rest with
      | .error e => .error e
      | .ok vs => .ok (us ++ vs)

/-- scrape_parallel.main end to end: an uncaught ValueError during collection
aborts `main` before the pool is created, so nothing is persisted; otherwise
the pool maps the workers over the collected units.  The pool stage is
abstracted as an arbitrary function of the unit list (the theorem below only
needs that a pool given no units persists nothing). -/
def parallel_main_persisted (reg : Registry) (yls : List (List PlayerRow))
    (pool : List QueuedUnit → List String) : List String :=
  match collect_units reg yls with
  | .error _ => []
  | .ok us => pool us

theorem collectPlayers_result (reg : Registry) :
    ∀ rows : List PlayerRow,
      collectPlayers reg rows = if rows.isEmpty then .ok [] else .error () := by
  intro rows
  cases rows with
  | nil => rfl
  | cons r rest => rfl

theorem collect_units_result (reg : Registry) :
    ∀ yls : List (List PlayerRow),
      collect_units reg yls = .error () ∨ collect_units reg yls = .ok [] := by
  intro yls
  induction yls with
  | nil => exact Or.inr rfl
  | cons ps rest ih =>
    unfold collect_units
    rw [collectPlayers_result reg ps]
    cases ps with
    | cons r rs => exact Or.inl rfl
    | nil =>
      rcases ih with h | h <;> rw [h]
      · exact Or.inl rfl
      · exact Or.inr rfl

/-- The unit used in the C8 witness: a player id appearing in two years. -/
def unitA : WorkUnit := ⟨"a", "A", []⟩

/-- C8: a player id is persisted at most once per run.  In the serial entry
point the global seen set skips every later occurrence of an id, however many
years list it.  The parallel entry point's collection loop unpacks each
3-field row returned by `get_players_for_year` into four targets, which
raises ValueError on the first player of the first nonempty year, so `main`
aborts before the pool starts and the parallel run enqueues no unit and
persists nothing (with no players at all the pool runs over zero units);
either way at most one unit of work and at most one persisted record per id. -/
theorem dedup_at_most_once :
    (∀ (yearLists : List (List WorkUnit)) (p : String),
      countOcc p (serial_run yearLists) ≤ 1)
    ∧ (∀ (reg : Registry) (yls : List (List PlayerRow)),
        collect_units reg yls = .error () ∨ collect_units reg yls = .ok [])
    ∧ (∀ (reg : Registry) (yls : List (List PlayerRow))
        (pool : List QueuedUnit → List String) (p : String), pool [] = [] →
        countOcc p (parallel_main_persisted reg yls pool) = 0) := by
  refine ⟨fun yls p => serialYears_le_one yls [] p, collect_units_result, ?_⟩
  intro reg yls pool p hpool
  unfold parallel_main_persisted
  rcases collect_units_result reg yls with h | h <;> rw [h]
  · rfl
  · dsimp only
    rw [hpool]
    rfl

theorem dedup_at_most_once_witness :
    countOcc "a" (serial_run [[unitA], [unitA]]) ≤ 1
    ∧ countOcc "a" (parallel_main_persisted [] [[⟨"a", "A", "u"⟩]]
        (fun _ => [])) = 0 :=
  ⟨dedup_at_most_once.1 [[unitA], [unitA]] "a",
   dedup_at_most_once.2.2 [] [[⟨"a", "A", "u"⟩]] (fun _ => []) "a" rfl⟩

end FantasyStats
